import Mathlib

/-!
Verification of the LinkedIn mini-games parsing and ranking scripts
(src/linkedin_games_parser.py and src/ranking_app.py) through a shallow
embedding of their string processing, date resolution, scoring and
aggregation logic.  Lines of text are modelled as `List Char`; machine
integers as `Nat`/`Int`; floating-point score arithmetic as exact `Rat`
(the values involved are small and the claims are about exact values); a
Python exception escaping a function is modelled as `Except.error`.
-/

namespace LG

/-- ASCII whitespace as matched by the regex class \s (Python re). -/
def isWS (c : Char) : Bool :=
  c = ' ' || c = '\t' || c = '\n' || c = '\r' || c = '\x0b' || c = '\x0c'

/-- ASCII decimal digit, as matched by the regex class \d on the inputs in scope. -/
def isDigitC (c : Char) : Bool :=
  48 ≤ c.toNat && c.toNat ≤ 57

/-- Numeric value of a digit character. -/
def digitVal (c : Char) : ℕ := c.toNat - 48

/-- Value of a string of decimal digits, most significant first. -/
def digitsVal (cs : List Char) : ℕ := cs.foldl (fun a c => a * 10 + digitVal c) 0

/-- The decimal digit character for a value below ten. -/
def digitChar : ℕ → Char
  | 0 => '0' | 1 => '1' | 2 => '2' | 3 => '3' | 4 => '4'
  | 5 => '5' | 6 => '6' | 7 => '7' | 8 => '8' | _ => '9'

/-- Decimal digits of n, most significant first; fuel-driven so that it reduces
definitionally (the fuel is always taken at least n + 1). -/
def natDigitsAux : ℕ → ℕ → List Char
  | 0, _ => []
  | fuel + 1, n =>
    if n < 10 then [digitChar n]
    else natDigitsAux fuel (n / 10) ++ [digitChar (n % 10)]

/-- Decimal representation of a natural number, as produced by a Python f-string. -/
def natStr (n : ℕ) : List Char := natDigitsAux (n + 1) n

/-- Python str.strip() on both ends. -/
def pyStrip (cs : List Char) : List Char :=
  (((cs.dropWhile isWS).reverse).dropWhile isWS).reverse

/-- Python int() on a string: optional surrounding whitespace, an optional sign and
at least one decimal digit.  Python raises ValueError on anything else; the raise is
modelled as none (no claim distinguishes it from an explicit None return). -/
def pyInt (cs : List Char) : Option ℤ :=
  match pyStrip cs with
  | [] => none
  | c :: ds =>
    if c = '-' then
      if ds ≠ [] && ds.all isDigitC then some (-(digitsVal ds : ℤ)) else none
    else if c = '+' then
      if ds ≠ [] && ds.all isDigitC then some ((digitsVal ds : ℤ)) else none
    else if (c :: ds).all isDigitC then some ((digitsVal (c :: ds) : ℤ)) else none

/-- Python str.split(sep) for a single-character separator. -/
def splitCh (sep : Char) : List Char → List (List Char)
  | [] => [[]]
  | c :: cs =>
    let r := splitCh sep cs
    if c = sep then [] :: r
    else
      match r with
      | [] => [[c]]
      | h :: t => (c :: h) :: t

/-- Python string comparison s1 <= s2: lexicographic on code points. -/
def strLe : List Char → List Char → Bool
  | [], _ => true
  | _ :: _, [] => false
  | a :: as, b :: bs =>
    if a.toNat < b.toNat then true
    else if b.toNat < a.toNat then false
    else strLe as bs

/-- Does pat occur as a prefix of cs. -/
def hasPrefixCh : List Char → List Char → Bool
  | [], _ => true
  | _ :: _, [] => false
  | p :: ps, c :: cs => p = c && hasPrefixCh ps cs

/-- Does pat occur as a contiguous substring of cs. -/
def containsSeq (pat : List Char) : List Char → Bool
  | [] => hasPrefixCh pat []
  | c :: rest => hasPrefixCh pat (c :: rest) || containsSeq pat rest

/- ### time_to_seconds (src/ranking_app.py lines 23-32) and the m:ss encoder -/

/-- Embeds time_to_seconds: strip, split on colons, convert every part with int()
(a ValueError raised there is modelled as none, like the explicit None returns for
a part count other than 2 or 3), then minutes*60+seconds or hours*3600+... -/
def timeToSeconds (cs : List Char) : Option ℤ :=
  match (splitCh ':' (pyStrip cs)).mapM pyInt with
  | some [m, s] => some (m * 60 + s)
  | some [h, m, s] => some (h * 3600 + m * 60 + s)
  | _ => none

/-- A value below sixty rendered as exactly two digits, as the format :02d does. -/
def pad2 (n : ℕ) : List Char :=
  if n < 10 then ['0', digitChar n] else natStr n

/-- Embeds the m:ss formatting lambda of src/ranking_app.py (lines 199-201 and
341-346) at integer seconds: int(x // 60), a colon, int(x % 60) zero-padded
to two digits. -/
def fmtMMSS (s : ℕ) : List Char :=
  natStr (s / 60) ++ ':' :: pad2 (s % 60)

/- ### The header regex of src/linkedin_games_parser.py (line_re, lines 24-27,
and the re.match check on line 55) -/

/-- Exactly two decimal digits at the front. -/
def takeDigits2 : List Char → Option (List Char × List Char)
  | a :: b :: rest => if isDigitC a && isDigitC b then some ([a, b], rest) else none
  | _ => none

/-- The hour of the header time token, regex \d{1,2} taken greedily.  When two
digits are available they are committed: if the following ':' then fails, the
one-digit alternative would need ':' where a digit stands, so it fails too. -/
def hourTok : List Char → Option (List Char × List Char)
  | [] => none
  | [a] => if isDigitC a then some ([a], []) else none
  | a :: b :: rest =>
    if isDigitC a then
      if isDigitC b then some ([a, b], rest) else some ([a], b :: rest)
    else none

/-- The header time token \d{1,2}:\d{2}:\d{2} followed by the closing bracket. -/
def parseTimeTok (cs : List Char) : Option (List Char × List Char) :=
  match hourTok cs with
  | some (h, cs1) =>
    match cs1 with
    | ':' :: a :: b :: ':' :: c :: e :: ']' :: rest =>
      if isDigitC a && isDigitC b && isDigitC c && isDigitC e then
        some (h ++ ':' :: a :: b :: ':' :: c :: [e], rest)
      else none
    | _ => none
  | none => none

/-- After the date token: an optional comma, a mandatory space, then the time
token and the closing bracket.  If a comma is present it must be consumed: the
alternative of not consuming it puts the mandatory space on the comma. -/
def afterDate (cs : List Char) : Option (List Char × List Char) :=
  let cs1 := match cs with
    | ',' :: r => r
    | r => r
  match cs1 with
  | ' ' :: cs2 => parseTimeTok cs2
  | _ => none

/-- Embeds the anchored header prefix shared by line_re and the line-55 check:
a bracket, DD/MM/(YY..YYYY) with the year digits \d{2,4} taken greedily, an
optional comma, a space, H.:MM:SS and the closing bracket.  A digit run longer
than four cannot match: after any allowed year length a digit remains where
',' or ' ' is required; likewise the run cannot be cut short.  Returns
(date token, time token, rest after the bracket). -/
def headerPrefix (cs : List Char) : Option (List Char × List Char × List Char) :=
  match cs with
  | '[' :: cs1 =>
    match takeDigits2 cs1 with
    | some (d, cs2) =>
      match cs2 with
      | '/' :: cs3 =>
        match takeDigits2 cs3 with
        | some (mth, cs4) =>
          match cs4 with
          | '/' :: cs5 =>
            let p := List.span isDigitC cs5
            if p.1.length < 2 || 4 < p.1.length then none
            else
              match afterDate p.2 with
              | some (timeTok, rest) =>
                some (d ++ '/' :: mth ++ '/' :: p.1, timeTok, rest)
              | none => none
          | _ => none
        | none => none
      | _ => none
    | none => none
  | _ => none

/-- The quick header test of line 55 (same prefix pattern, via re.match). -/
def isHeaderLine (cs : List Char) : Bool := (headerPrefix cs).isSome

/-- The lazy sender group (.*?) of line_re: the shortest prefix stopping at a
':' followed by one whitespace character; returns (sender, text after that
whitespace). -/
def splitSender : List Char → Option (List Char × List Char)
  | [] => none
  | ':' :: rest =>
    match rest with
    | c :: rest1 =>
      if isWS c then some ([], rest1)
      else
        match splitSender rest with
        | some (s, t) => some (':' :: s, t)
        | none => none
    | [] => none
  | c :: rest =>
    match splitSender rest with
    | some (s, t) => some (c :: s, t)
    | none => none

/-- Embeds line_re applied with .search to a joined message.  A joined message
contains no newline, so under re.MULTILINE the ^ anchor only matches at the
start and the final ([\s\S]*)$ takes the whole remainder.  Returns
(date token, time token, sender, text). -/
def lineSearch (cs : List Char) : Option (List Char × List Char × List Char × List Char) :=
  match headerPrefix cs with
  | some (dateTok, timeTok, rest) =>
    match rest with
    | w :: rest1 =>
      if isWS w then
        match splitSender rest1 with
        | some (s, t) => some (dateTok, timeTok, s, t)
        | none => none
      else none
    | [] => none
  | none => none

/- ### The game regex (game_re, lines 28-31) -/

/-- A character of the class [A-Za-z\s]. -/
def isGameChar (c : Char) : Bool :=
  (65 ≤ c.toNat && c.toNat ≤ 90) || (97 ≤ c.toNat && c.toNat ≤ 122) || isWS c

/-- The time group \d{1,2}:\d{2} at the current position, minutes taken greedily:
with two digits in hand the ':' must follow them (the one-digit alternative
would need ':' where a digit stands). -/
def timeMatchAt (cs : List Char) : Option (List Char) :=
  match cs with
  | a :: b :: rest =>
    if isDigitC a && isDigitC b then
      match rest with
      | ':' :: d :: e :: _ => if isDigitC d && isDigitC e then some [a, b, ':', d, e] else none
      | _ => none
    else if isDigitC a && b = ':' then
      match rest with
      | d :: e :: _ => if isDigitC d && isDigitC e then some [a, ':', d, e] else none
      | _ => none
    else none
  | _ => none

/-- The lazy gap [(\s\n)\S\n]*? (every character) followed by the time group:
the first position at which the time group matches. -/
def findTime : List Char → Option (List Char)
  | [] => none
  | c :: rest =>
    match timeMatchAt (c :: rest) with
    | some t => some t
    | none => findTime rest

/-- Backtracking of the greedy \d+ number group: dsRev holds the reversed
digits still used as the number; when the time search after them fails, the
last digit is given back to the lazy gap and the search retries. -/
def tryNumberRev : List Char → List Char → Option (List Char × List Char)
  | [], _ => none
  | d :: dsRev, rest =>
    match findTime rest with
    | some t => some ((d :: dsRev).reverse, t)
    | none => tryNumberRev dsRev (d :: rest)

/-- game_re at one position: the optional '#' is consumed only when a name
character follows (otherwise the mandatory [A-Za-z\s]+ fails and the regex
retries without it); the name run is maximal (any shorter run leaves a name
character where '#' is required); then '#', the digits and the time search. -/
def gameMatchAt (cs : List Char) : Option (List Char × List Char × List Char) :=
  let cs1 := match cs with
    | '#' :: d :: rest => if isGameChar d then d :: rest else cs
    | _ => cs
  let p := List.span isGameChar cs1
  if p.1 = [] then none
  else
    match p.2 with
    | '#' :: cs3 =>
      let q := List.span isDigitC cs3
      if q.1 = [] then none
      else
        match tryNumberRev q.1.reverse q.2 with
        | some (num, t) => some (p.1, num, t)
        | none => none
    | _ => none

/-- game_re.search: the leftmost position at which the pattern matches;
returns (raw name capture, number, time). -/
def gameSearch : List Char → Option (List Char × List Char × List Char)
  | [] => none
  | c :: rest =>
    match gameMatchAt (c :: rest) with
    | some r => some r
    | none => gameSearch rest

/- ### The CEO regex (ceo_re, line 32) -/

/-- The trailing (CEOs|CEO|PDG) group reached through a greedy [\s\S]*: it
matches exactly when "CEO" or "PDG" occurs somewhere in the remainder
("CEOs" contains "CEO"); the pattern is case sensitive. -/
def ceoTok (cs : List Char) : Bool :=
  containsSeq ['C', 'E', 'O'] cs || containsSeq ['P', 'D', 'G'] cs

/-- ceo_re at one position: \s* taken greedily (giving spaces back cannot make
\d match), then one or two digits taken greedily followed by '%' (after a
two-digit take the '%' must follow: the one-digit alternative needs '%' where
a digit stands), then the keyword search in the remainder. -/
def ceoMatchAt (cs : List Char) : Option (List Char) :=
  match cs.dropWhile isWS with
  | a :: b :: rest2 =>
    if isDigitC a then
      if isDigitC b then
        match rest2 with
        | p :: rest3 => if p = '%' && ceoTok rest3 then some [a, b] else none
        | [] => none
      else if b = '%' then (if ceoTok rest2 then some [a] else none)
      else none
    else none
  | _ => none

/-- ceo_re.search: the leftmost position at which the pattern matches; the
captured group is the digit string before the percent sign. -/
def ceoSearch : List Char → Option (List Char)
  | [] => none
  | c :: rest =>
    match ceoMatchAt (c :: rest) with
    | some r => some r
    | none => ceoSearch rest

/- ### The date resolver (datetime.strptime at lines 62-66 / 92-96) -/

def leapYear (y : ℕ) : Bool := (y % 4 = 0 && y % 100 ≠ 0) || y % 400 = 0

def daysInMonth (y m : ℕ) : ℕ :=
  if m = 2 then (if leapYear y then 29 else 28)
  else if m = 4 || m = 6 || m = 9 || m = 11 then 30
  else 31

/-- A calendar date (year, month, day) as produced by datetime.date. -/
structure PDate where
  year : ℕ
  month : ℕ
  day : ℕ
deriving DecidableEq

/-- The validity check performed by strptime's token patterns together with the
datetime.date constructor. -/
def validDMY (y m d : ℕ) : Bool :=
  (1 ≤ y && 1 ≤ m && m ≤ 12) && (1 ≤ d && d ≤ daysInMonth y m)

/-- Embeds the date handling of the parser: a token of length 8 goes through
strptime d/m/y, anything else through d/m/Y.  The %d, %m, %y tokens take
exactly two digits here, %Y exactly four (a 3-digit year fails d/m/Y and the
8-length test keeps it off d/m/y).  CPython strptime maps a two-digit year
YY to 2000+YY when YY <= 68 and to 1900+YY otherwise.  A strptime or
datetime.date ValueError is Except.error: the source has no handler for it. -/
def resolveDate (cs : List Char) : Except Unit PDate :=
  if cs.length = 8 then
    match cs with
    | [d1, d2, '/', m1, m2, '/', y1, y2] =>
      if [d1, d2, m1, m2, y1, y2].all isDigitC then
        let dd := digitsVal [d1, d2]
        let mm := digitsVal [m1, m2]
        let yy := digitsVal [y1, y2]
        let y := if yy ≤ 68 then 2000 + yy else 1900 + yy
        if validDMY y mm dd then .ok ⟨y, mm, dd⟩ else .error ()
      else .error ()
    | _ => .error ()
  else
    match cs with
    | [d1, d2, '/', m1, m2, '/', y1, y2, y3, y4] =>
      if [d1, d2, m1, m2, y1, y2, y3, y4].all isDigitC then
        let dd := digitsVal [d1, d2]
        let mm := digitsVal [m1, m2]
        let y := digitsVal [y1, y2, y3, y4]
        if validDMY y mm dd then .ok ⟨y, mm, dd⟩ else .error ()
      else .error ()
    | _ => .error ()

/-- Chronological comparison of dates.  The source sorts the ISO strings
YYYY-MM-DD produced by date.isoformat(); on zero-padded four-digit years their
lexicographic order is exactly this order. -/
def dateLe (a b : PDate) : Bool :=
  a.year < b.year ||
    (a.year = b.year &&
      (a.month < b.month || (a.month = b.month && a.day ≤ b.day)))

/- ### Rows and the parse loop (parse_whatsapp_chat, lines 34-151) -/

/-- A parsed message before the DataFrame step: the dict built at lines 69-77,
including the text field. -/
structure RawRow where
  date : PDate
  sender : List Char
  text : List Char
  game : Option (List Char)
  gameNumber : Option (List Char)
  playTime : Option (List Char)
  ceoPercent : Option (List Char)
deriving DecidableEq

/-- A row of the returned DataFrame: the six selected columns (text dropped). -/
structure Row where
  date : PDate
  sender : List Char
  game : Option (List Char)
  gameNumber : Option (List Char)
  playTime : Option (List Char)
  ceoPercent : Option (List Char)
deriving DecidableEq

/-- The range invariant claimed for the ceo_percent column of a table row:
absent, or a one-to-two-digit capture whose value is at most 99. -/
def ceoOk (r : Row) : Bool :=
  match r.ceoPercent with
  | none => true
  | some ds =>
    (decide (1 ≤ ds.length) && decide (ds.length ≤ 2)) &&
      (ds.all isDigitC && decide (digitsVal ds ≤ 99))

/-- The seven invisible marks removed by clean_line. -/
def invisibleChars : List Char :=
  ['\u200E', '\u200F', '\u202A', '\u202B', '\u202C', '\u202D', '\u202E']

/-- Embeds clean_line.  unicodedata NFKC normalization is the identity on the
ASCII inputs considered throughout this development and is not modelled; the
sequential str.replace calls amount to filtering the seven marks out. -/
def cleanLine (cs : List Char) : List Char :=
  cs.filter (fun c => !(invisibleChars.contains c))

/-- Python " ".join on message lines. -/
def joinSpace : List (List Char) → List Char
  | [] => []
  | [l] => l
  | l :: rest => l ++ ' ' :: joinSpace rest

/-- Embeds the per-message body at lines 57-78 (and its copy at 86-108):
line_re.search on the joined message, the date resolution (whose ValueError
propagates), then the game and CEO searches and the row dict. -/
def extractRow (msg : List Char) : Except Unit (Option RawRow) :=
  match lineSearch msg with
  | none => .ok none
  | some (dateTok, _timeTok, s, text) =>
    match resolveDate dateTok with
    | .error e => .error e
    | .ok d =>
      let g := gameSearch text
      .ok (some
        { date := d
          sender := s
          text := text
          game := g.map (fun r => pyStrip r.1)
          gameNumber := g.map (fun r => r.2.1)
          playTime := g.map (fun r => r.2.2)
          ceoPercent := ceoSearch text })

/-- One iteration of the for-loop at lines 50-84: state is (emitted rows,
lines of the currently open message). -/
def parseStep (st : List RawRow × List (List Char)) (line : List Char) :
    Except Unit (List RawRow × List (List Char)) :=
  let raw := cleanLine line
  if isHeaderLine raw then
    match st.2 with
    | [] => .ok (st.1, [raw])
    | cur =>
      match extractRow (joinSpace cur) with
      | .error e => .error e
      | .ok none => .ok (st.1, [raw])
      | .ok (some r) => .ok (st.1 ++ [r], [raw])
  else .ok (st.1, st.2 ++ [raw])

/-- Embeds the whole loop including the flush of the last open message at end
of input (lines 86-108).  On an empty input the loop variable raw was never
bound and line 115 raises NameError; the state is then still ([], []) and the
error branch models that raise. -/
def parseRaw (lines : List (List Char)) : Except Unit (List RawRow) :=
  match lines.foldlM parseStep ([], []) with
  | .error e => .error e
  | .ok st =>
    match st.2 with
    | [] => .error ()
    | cur =>
      match extractRow (joinSpace cur) with
      | .error e => .error e
      | .ok none => .ok st.1
      | .ok (some r) => .ok (st.1 ++ [r])

/-- The defensive re-search of lines 121-126 on one row. -/
def fixCeo (r : RawRow) : RawRow :=
  match r.ceoPercent with
  | none => { r with ceoPercent := ceoSearch r.text }
  | some _ => r

/-- The defensive re-search pass of lines 121-126. -/
def fixCeoPass (rows : List RawRow) : List RawRow := rows.map fixCeo

/-- Column selection of lines 129-140: the text field is dropped. -/
def rowOf (r : RawRow) : Row :=
  { date := r.date
    sender := r.sender
    game := r.game
    gameNumber := r.gameNumber
    playTime := r.playTime
    ceoPercent := r.ceoPercent }

/-- Row order used by sort_values(by=date). -/
def rowLe (a b : Row) : Prop := dateLe a.date b.date = true

instance : DecidableRel rowLe := fun a b => instDecidableEqBool (dateLe a.date b.date) true

instance : IsTotal Row rowLe :=
  ⟨by
    intro a b
    simp only [rowLe, dateLe, Bool.or_eq_true, Bool.and_eq_true, decide_eq_true_eq]
    omega⟩

instance : IsTrans Row rowLe :=
  ⟨by
    intro a b c
    simp only [rowLe, dateLe, Bool.or_eq_true, Bool.and_eq_true, decide_eq_true_eq]
    omega⟩

/-- Embeds the DataFrame construction at lines 128-144: select the six
columns, sort by date ascending, drop rows without a game.  The unstable
pandas sort is modelled by insertion sort; every property stated below
(sortedness, membership, and concrete tables whose ties keep input order as
numpy's small-array sorts do) is insensitive to that choice. -/
def toTable (rows : List RawRow) : List Row :=
  (List.insertionSort rowLe (rows.map rowOf)).filter (fun r => r.game.isSome)

/-- The full parse_whatsapp_chat pipeline (the optional CSV output is a side
effect outside the returned value). -/
def parseTable (lines : List (List Char)) : Except Unit (List Row) :=
  (parseRaw lines).map (fun rows => toTable (fixCeoPass rows))

/-- The same pipeline with the defensive re-search pass omitted, for the
equivalence claim about that pass. -/
def parseTableNoPass (lines : List (List Char)) : Except Unit (List Row) :=
  (parseRaw lines).map toTable

/- ### The score engine (src/ranking_app.py lines 254-299) -/

/-- Number of entries of the day strictly faster than t; pandas
rank(method="min") assigns rank cntLt+1 to an entry with time t. -/
def cntLt (ts : List ℤ) (t : ℤ) : ℕ := ts.countP (fun u => decide (u < t))

/-- The base point map of line 255: rank 1 -> 5, 2 -> 3, 3 -> 1, else 0
(via map + fillna(0)). -/
def baseScore (r : ℕ) : ℚ :=
  if r = 1 then 5 else if r = 2 then 3 else if r = 3 then 1 else 0

/-- Base points of the entry with time t within the day's times ts. -/
def baseOf (ts : List ℤ) (t : ℤ) : ℚ := baseScore (cntLt ts t + 1)

/-- The day's total of base points (the sum tested against 9 at line 261). -/
def baseSum (ts : List ℤ) : ℚ := (ts.map (baseOf ts)).sum

/-- Multiplicity of a base-point value among the day's entries
(value_counts at line 262). -/
def tieCount (ts : List ℤ) (v : ℚ) : ℕ :=
  ts.countP (fun u => decide (baseOf ts u = v))

/-- Embeds the redistribution chain of lines 262-283.  The source iterates over
the distinct base values and rewrites matching rows in place; on rank-derived
scores those rewrites touch pairwise disjoint row sets (a replacement value
never coincides with another value present in the same day: 5s with
multiplicity >= 2 exclude 3s and, when split three ways, 1s; 3s with
multiplicity >= 2 exclude 1s), so the result is this per-entry function of the
entry's base value and that value's multiplicity. -/
def redistScore (ts : List ℤ) (t : ℤ) : ℚ :=
  let v := baseOf ts t
  let m := tieCount ts v
  if v = 5 ∧ m = 2 then 4
  else if v = 5 ∧ 2 < m then 9 / (m : ℚ)
  else if v = 3 ∧ 1 < m then 4 / (m : ℚ)
  else if v = 1 ∧ 1 < m then 1 / (m : ℚ)
  else v

/-- Final points of one entry: the redistribution only runs when the day's
base points do not sum to 9 (line 261). -/
def finalScore (ts : List ℤ) (t : ℤ) : ℚ :=
  if baseSum ts = 9 then baseOf ts t else redistScore ts t

/-- The day's total of final points for one DailyGameGroup. -/
def dayPoints (ts : List ℤ) : ℚ := (ts.map (finalScore ts)).sum

/- ### Scoring applied to a parsed table (for the end-to-end scenario) -/

/-- Python str.lower on the ASCII range. -/
def strLower (cs : List Char) : List Char :=
  cs.map (fun c => if 65 ≤ c.toNat ∧ c.toNat ≤ 90 then Char.ofNat (c.toNat + 32) else c)

/-- The rows of one DailyGameGroup: game compared case-insensitively
(line 249), then one date group of the groupby at line 256. -/
def gameDayRows (tbl : List Row) (g : List Char) (d : PDate) : List Row :=
  tbl.filter (fun r =>
    (match r.game with
     | some gg => decide (strLower gg = strLower g)
     | none => false) && decide (r.date = d))

/-- time_to_seconds applied to the play_time column (line 162). -/
def timeSecOf (r : Row) : Option ℤ := r.playTime.bind timeToSeconds

/-- The day's list of comparable times; a row whose time fails to parse is NaN
in the source, gets no rank and keeps score 0 without affecting the others. -/
def groupTimes (tbl : List Row) (g : List Char) (d : PDate) : List ℤ :=
  (gameDayRows tbl g d).filterMap timeSecOf

/-- Final points of one row of a DailyGameGroup. -/
def rowScore (tbl : List Row) (g : List Char) (d : PDate) (r : Row) : ℚ :=
  match timeSecOf r with
  | none => 0
  | some t => finalScore (groupTimes tbl g d) t

/-- The min-method rank of one row within its DailyGameGroup. -/
def rowRank (tbl : List Row) (g : List Char) (d : PDate) (r : Row) : Option ℕ :=
  (timeSecOf r).map (fun t => cntLt (groupTimes tbl g d) t + 1)

/-- Summed points of one sender for one (game, date) pair. -/
def senderScore (tbl : List Row) (g : List Char) (d : PDate) (s : List Char) : ℚ :=
  (((gameDayRows tbl g d).filter (fun r => decide (r.sender = s))).map
    (rowScore tbl g d)).sum

/-- The day's total points for one (game, date) pair. -/
def dayTotal (tbl : List Row) (g : List Char) (d : PDate) : ℚ :=
  ((gameDayRows tbl g d).map (rowScore tbl g d)).sum

/- ### The single-day per-game view (src/ranking_app.py lines 336-339, 380-394) -/

/-- Row order of the single-day view: sort_values(by="Time") on the m:ss
string column, compared as Python strings compare. -/
def viewRowLe (a b : String × ℕ) : Prop :=
  strLe (fmtMMSS a.2) (fmtMMSS b.2) = true

instance : DecidableRel viewRowLe :=
  fun a b => instDecidableEqBool (strLe (fmtMMSS a.2) (fmtMMSS b.2)) true

instance : IsTotal (String × ℕ) viewRowLe :=
  ⟨by
    have key : ∀ xs ys : List Char, strLe xs ys = true ∨ strLe ys xs = true := by
      intro xs
      induction xs with
      | nil => intro ys; left; rfl
      | cons a as ih =>
        intro ys
        cases ys with
        | nil => right; rfl
        | cons b bs =>
          by_cases h1 : a.toNat < b.toNat
          · left; simp [strLe, h1]
          · by_cases h2 : b.toNat < a.toNat
            · right; simp [strLe, h2]
            · rcases ih bs with h | h
              · left; simp [strLe, h1, h2, h]
              · right; simp [strLe, h1, h2, h]
    intro a b
    exact key _ _⟩

instance : IsTrans (String × ℕ) viewRowLe :=
  ⟨by
    have key : ∀ xs ys zs : List Char,
        strLe xs ys = true → strLe ys zs = true → strLe xs zs = true := by
      intro xs
      induction xs with
      | nil => intro ys zs h1 h2; rfl
      | cons a as ih =>
        intro ys zs h1 h2
        match ys, zs with
        | [], _ => exact absurd h1 (by simp [strLe])
        | b :: bs, [] => exact absurd h2 (by simp [strLe])
        | b :: bs, c :: cs =>
          rw [strLe] at h1 h2 ⊢
          by_cases hab : a.toNat < b.toNat
          · by_cases hbc : b.toNat < c.toNat
            · have hac : a.toNat < c.toNat := by omega
              simp [hac]
            · by_cases hcb : c.toNat < b.toNat
              · simp [hbc, hcb] at h2
              · have hac : a.toNat < c.toNat := by omega
                simp [hac]
          · by_cases hba : b.toNat < a.toNat
            · simp [hab, hba] at h1
            · by_cases hbc : b.toNat < c.toNat
              · have hac : a.toNat < c.toNat := by omega
                simp [hac]
              · by_cases hcb : c.toNat < b.toNat
                · simp [hbc, hcb] at h2
                · have hnac : ¬ a.toNat < c.toNat := by omega
                  have hnca : ¬ c.toNat < a.toNat := by omega
                  simp only [if_neg hab, if_neg hba] at h1
                  simp only [if_neg hbc, if_neg hcb] at h2
                  simp only [if_neg hnac, if_neg hnca]
                  exact ih bs cs h1 h2
    intro a b c
    exact key _ _ _⟩

/-- Embeds the single-day branch at lines 380-394: the view rows (player,
aggregated time in seconds) ordered by the formatted Time column.  The
aggregated time time_sec_avg is the groupby mean, an integer whenever the
player has a single result that day (the situation the claim describes). -/
def singleDayView (rows : List (String × ℕ)) : List (String × ℕ) :=
  List.insertionSort viewRowLe rows

/- ### The all-days total-time normalization (src/ranking_app.py lines 169-197) -/

/-- Rows played by sender s: groupby(sender).size() counts result rows. -/
def gamesPlayed (rows : List (String × ℤ)) (s : String) : ℕ :=
  (rows.filter (fun r => decide (r.1 = s))).length

/-- Summed time of sender s: the per-day sums at lines 170-175 summed again at
lines 183-185 equal the plain sum over the sender's rows. -/
def totalTime (rows : List (String × ℤ)) (s : String) : ℤ :=
  ((rows.filter (fun r => decide (r.1 = s))).map (fun r => r.2)).sum

/-- games_played.max() over the players present. -/
def maxGames (rows : List (String × ℤ)) : ℕ :=
  (rows.map (fun r => gamesPlayed rows r.1)).foldr max 0

/-- Round half to even on rationals, the rounding numpy applies. -/
def rhe (x : ℚ) : ℤ :=
  let f := Int.floor x
  if x - f < 1 / 2 then f
  else if 1 / 2 < x - f then f + 1
  else if f % 2 = 0 then f else f + 1

/-- The pandas .round(2) of line 189, modelled in exact rationals. -/
def round2 (x : ℚ) : ℚ := (rhe (100 * x) : ℚ) / 100

/-- The Average Time per Game (sec) column: total over games played, rounded
to two decimals (lines 186-189). -/
def avgTime (rows : List (String × ℤ)) (s : String) : ℚ :=
  round2 ((totalTime rows s : ℚ) / (gamesPlayed rows s : ℚ))

/-- Embeds the normalization lambda of lines 190-197: a player at the maximum
row count keeps the actual total; anyone else is padded by
(max - own count) * own rounded average. -/
def normalizedTotal (rows : List (String × ℤ)) (s : String) : ℚ :=
  if gamesPlayed rows s = maxGames rows then (totalTime rows s : ℚ)
  else ((maxGames rows : ℚ) - (gamesPlayed rows s : ℚ)) * avgTime rows s +
    (totalTime rows s : ℚ)

/- ### Concrete inputs used by the scenario claims -/

/-- The three-message Tango scenario input. -/
def c5lines : List (List Char) :=
  [("[14/10/2025, 09:00:00] Alice: Tango #120 | 0:45").data,
   ("[14/10/2025, 09:05:00] Bob: Tango #120 | 0:50").data,
   ("[14/10/2025, 09:10:00] Cara: Tango #120 | 0:55").data,
   ("98% CEOs").data]

def c5date : PDate := ⟨2025, 10, 14⟩

def c5rowAlice : Row :=
  { date := c5date, sender := ("Alice").data, game := some (("Tango").data)
    gameNumber := some (("120").data), playTime := some (("0:45").data)
    ceoPercent := none }

def c5rowBob : Row :=
  { date := c5date, sender := ("Bob").data, game := some (("Tango").data)
    gameNumber := some (("120").data), playTime := some (("0:50").data)
    ceoPercent := none }

def c5rowCara : Row :=
  { date := c5date, sender := ("Cara").data, game := some (("Tango").data)
    gameNumber := some (("120").data), playTime := some (("0:55").data)
    ceoPercent := some (("98").data) }

def c5table : List Row := [c5rowAlice, c5rowBob, c5rowCara]

/-- A header line carrying an impossible calendar date, followed by a
perfectly well-formed message that a tolerant parser would keep. -/
def c2lines : List (List Char) :=
  [("[31/02/2025, 09:00:00] Alice: Tango #1 | 0:45").data,
   ("[14/10/2025, 09:05:00] Bob: Tango #1 | 0:50").data]

/-- The same game-result message submitted twice. -/
def c3lines : List (List Char) :=
  [("[14/10/2025, 09:00:00] Alice: Tango #120 | 0:45").data,
   ("[14/10/2025, 09:00:00] Alice: Tango #120 | 0:45").data]

/-- A message whose body reports an accuracy of 100%. -/
def c10lines : List (List Char) :=
  [("[14/10/2025, 09:00:00] Al: Zip #5 | 0:45 100% CEOs").data]

def c10row : Row :=
  { date := c5date, sender := ("Al").data, game := some (("Zip").data)
    gameNumber := some (("5").data), playTime := some (("0:45").data)
    ceoPercent := some ['0', '0'] }

/-- Aggregation rows refuting the exact-average normalization: P1 played three
games totalling 100 seconds, P2 played four. -/
def c7rows : List (String × ℤ) :=
  [("P1", 33), ("P1", 33), ("P1", 34), ("P2", 10), ("P2", 10), ("P2", 10), ("P2", 10)]

/-- Aggregation rows for the one-of-four-games scenario. -/
def c7rowsB : List (String × ℤ) :=
  [("P", 45), ("Q", 10), ("Q", 20), ("Q", 30), ("Q", 40)]

instance {ε α : Type} [DecidableEq ε] [DecidableEq α] : DecidableEq (Except ε α) := fun x y =>
  match x, y with
  | .ok a, .ok b =>
    if h : a = b then .isTrue (by rw [h]) else .isFalse (fun hc => h (by injection hc))
  | .error a, .error b =>
    if h : a = b then .isTrue (by rw [h]) else .isFalse (fun hc => h (by injection hc))
  | .ok _, .error _ => .isFalse (fun hc => Except.noConfusion hc)
  | .error _, .ok _ => .isFalse (fun hc => Except.noConfusion hc)

/- ### Lemmas about the digit machinery -/

theorem digitVal_digitChar {n : ℕ} (h : n ≤ 9) : digitVal (digitChar n) = n := by
  interval_cases n <;> rfl

theorem isDigitC_digitChar {n : ℕ} (h : n ≤ 9) : isDigitC (digitChar n) = true := by
  interval_cases n <;> rfl

theorem digitsVal_append (xs : List Char) (c : Char) :
    digitsVal (xs ++ [c]) = 10 * digitsVal xs + digitVal c := by
  simp [digitsVal, List.foldl_append]
  ring

theorem natDigitsAux_spec :
    ∀ fuel n, n < fuel →
      digitsVal (natDigitsAux fuel n) = n ∧
      (∀ c ∈ natDigitsAux fuel n, isDigitC c = true) ∧
      natDigitsAux fuel n ≠ [] := by
  intro fuel
  induction fuel with
  | zero => intro n h; omega
  | succ f ih =>
    intro n h
    by_cases h10 : n < 10
    · refine ⟨?_, ?_, ?_⟩ <;> simp [natDigitsAux, h10, digitsVal]
      · exact digitVal_digitChar (by omega)
      · exact isDigitC_digitChar (by omega)
    · have hdiv : n / 10 < f := by omega
      obtain ⟨h1, h2, h3⟩ := ih (n / 10) hdiv
      refine ⟨?_, ?_, ?_⟩
      · rw [natDigitsAux, if_neg h10, digitsVal_append, h1]
        rw [digitVal_digitChar (by omega)]
        omega
      · intro c hc
        rw [natDigitsAux, if_neg h10] at hc
        rcases List.mem_append.mp hc with hc1 | hc2
        · exact h2 c hc1
        · simp at hc2
          rw [hc2]
          exact isDigitC_digitChar (by omega)
      · rw [natDigitsAux, if_neg h10]
        simp

theorem digitsVal_natStr (n : ℕ) : digitsVal (natStr n) = n :=
  (natDigitsAux_spec (n + 1) n (by omega)).1

theorem natStr_all_digits (n : ℕ) : ∀ c ∈ natStr n, isDigitC c = true :=
  (natDigitsAux_spec (n + 1) n (by omega)).2.1

theorem natStr_ne_nil (n : ℕ) : natStr n ≠ [] :=
  (natDigitsAux_spec (n + 1) n (by omega)).2.2

theorem isWS_of_digit {c : Char} (h : isDigitC c = true) : isWS c = false := by
  simp only [isDigitC, Bool.and_eq_true, decide_eq_true_eq] at h
  simp only [isWS]
  have h1 : c.toNat ≠ 32 := by omega
  have h2 : c.toNat ≠ 9 := by omega
  have h3 : c.toNat ≠ 10 := by omega
  have h4 : c.toNat ≠ 13 := by omega
  have h5 : c.toNat ≠ 11 := by omega
  have h6 : c.toNat ≠ 12 := by omega
  simp only [Bool.or_eq_false_iff, decide_eq_false_iff_not]
  refine ⟨⟨⟨⟨⟨?_, ?_⟩, ?_⟩, ?_⟩, ?_⟩, ?_⟩ <;>
    (intro hEq; rw [hEq] at h1 h2 h3 h4 h5 h6; simp_all [Char.toNat])

theorem natDigitsAux_small {fuel n : ℕ} (hf : 0 < fuel) (h : n < 10) :
    natDigitsAux fuel n = [digitChar n] := by
  match fuel, hf with
  | f + 1, _ => simp [natDigitsAux, h]

theorem pad2_eq {n : ℕ} (h : n < 60) :
    pad2 n = [digitChar (n / 10), digitChar (n % 10)] := by
  by_cases h10 : n < 10
  · have h0 : n / 10 = 0 := by omega
    have hm : n % 10 = n := by omega
    rw [pad2, if_pos h10, h0, hm]
    rfl
  · have hd : n / 10 < 10 := by omega
    rw [pad2, if_neg h10, natStr]
    have h1 : natDigitsAux (n + 1) n = natDigitsAux n (n / 10) ++ [digitChar (n % 10)] := by
      simp [natDigitsAux, h10]
    rw [h1, natDigitsAux_small (by omega) hd]
    rfl

theorem pad2_all_digits {n : ℕ} (h : n < 60) : ∀ c ∈ pad2 n, isDigitC c = true := by
  rw [pad2_eq h]
  intro c hc
  simp only [List.mem_cons, List.not_mem_nil, or_false] at hc
  rcases hc with rfl | rfl
  · exact isDigitC_digitChar (by omega)
  · exact isDigitC_digitChar (by omega)

theorem digitsVal_pad2 {n : ℕ} (h : n < 60) : digitsVal (pad2 n) = n := by
  rw [pad2_eq h]
  show digitsVal ([digitChar (n / 10)] ++ [digitChar (n % 10)]) = n
  rw [digitsVal_append]
  have h1 : digitsVal [digitChar (n / 10)] = n / 10 := by
    simp [digitsVal, digitVal_digitChar (show n / 10 ≤ 9 by omega)]
  rw [h1, digitVal_digitChar (show n % 10 ≤ 9 by omega)]
  omega

theorem dropWhile_no_sat {p : Char → Bool} :
    ∀ {cs : List Char}, (∀ c ∈ cs, p c = false) → cs.dropWhile p = cs := by
  intro cs h
  induction cs with
  | nil => rfl
  | cons c rest _ =>
    have hc : p c = false := h c (by simp)
    simp [List.dropWhile_cons, hc]

theorem pyStrip_of_no_ws {cs : List Char} (h : ∀ c ∈ cs, isWS c = false) :
    pyStrip cs = cs := by
  unfold pyStrip
  rw [dropWhile_no_sat h, dropWhile_no_sat, List.reverse_reverse]
  intro c hc
  exact h c (List.mem_reverse.mp hc)

theorem splitCh_no_sep {sep : Char} {cs : List Char} (h : ∀ c ∈ cs, c ≠ sep) :
    splitCh sep cs = [cs] := by
  induction cs with
  | nil => rfl
  | cons c rest ih =>
    have hc : c ≠ sep := h c (by simp)
    have hrest := ih (fun x hx => h x (by simp [hx]))
    simp [splitCh, hc, hrest]

theorem splitCh_append {sep : Char} {xs ys : List Char} (h : ∀ c ∈ xs, c ≠ sep) :
    splitCh sep (xs ++ sep :: ys) = xs :: splitCh sep ys := by
  induction xs with
  | nil => simp [splitCh]
  | cons c rest ih =>
    have hc : c ≠ sep := h c (by simp)
    have hrest := ih (fun x hx => h x (by simp [hx]))
    simp only [List.cons_append, splitCh, List.append_eq, hrest, if_neg hc]

theorem pyInt_digits {ds : List Char} (hne : ds ≠ []) (hd : ∀ c ∈ ds, isDigitC c = true) :
    pyInt ds = some (digitsVal ds : ℤ) := by
  have hws : ∀ c ∈ ds, isWS c = false := fun c hc => isWS_of_digit (hd c hc)
  unfold pyInt
  rw [pyStrip_of_no_ws hws]
  match ds, hne, hd with
  | c :: rest, _, hd =>
    have hcd : isDigitC c = true := hd c (by simp)
    have hm : ¬ c = '-' := by
      intro hEq; rw [hEq] at hcd; exact absurd hcd (by decide)
    have hp : ¬ c = '+' := by
      intro hEq; rw [hEq] at hcd; exact absurd hcd (by decide)
    have hall : (c :: rest).all isDigitC = true := by
      rw [List.all_eq_true]; exact hd
    simp [hm, hp, hall]

theorem digit_ne_colon {c : Char} (h : isDigitC c = true) : c ≠ ':' := by
  intro hEq; rw [hEq] at h; exact absurd h (by decide)

theorem pad2_ne_nil {n : ℕ} (h : n < 60) : pad2 n ≠ [] := by
  rw [pad2_eq h]; simp

/- ### C8: play_time round-trips through the encoder and time_to_seconds -/

/-- C8.  For every non-negative integer s, formatting s as the
minutes:zero-padded-seconds string and applying time_to_seconds returns s;
in particular 125 seconds encodes as 2:05 and decoding 2:05 yields 125. -/
theorem c8_roundtrip :
    (∀ s : ℕ, timeToSeconds (fmtMMSS s) = some (s : ℤ)) ∧
    fmtMMSS 125 = ("2:05").data ∧ timeToSeconds (("2:05").data) = some 125 := by
  refine ⟨?_, by decide, by decide⟩
  intro s
  have hm60 : s % 60 < 60 := by omega
  have hnd : ∀ c ∈ natStr (s / 60), isDigitC c = true := natStr_all_digits _
  have hpd : ∀ c ∈ pad2 (s % 60), isDigitC c = true := pad2_all_digits hm60
  have hws : ∀ c ∈ natStr (s / 60) ++ ':' :: pad2 (s % 60), isWS c = false := by
    intro c hc
    rcases List.mem_append.mp hc with h1 | h2
    · exact isWS_of_digit (hnd c h1)
    · rcases List.mem_cons.mp h2 with rfl | h3
      · decide
      · exact isWS_of_digit (hpd c h3)
  have hsplit : splitCh ':' (natStr (s / 60) ++ ':' :: pad2 (s % 60)) =
      [natStr (s / 60), pad2 (s % 60)] := by
    rw [splitCh_append (fun c hc => digit_ne_colon (hnd c hc)),
      splitCh_no_sep (fun c hc => digit_ne_colon (hpd c hc))]
  rw [timeToSeconds, show fmtMMSS s = natStr (s / 60) ++ ':' :: pad2 (s % 60) from rfl,
    pyStrip_of_no_ws hws, hsplit]
  simp only [List.mapM_cons, List.mapM_nil,
    pyInt_digits (natStr_ne_nil _) hnd, pyInt_digits (pad2_ne_nil hm60) hpd,
    digitsVal_natStr, digitsVal_pad2 hm60, Option.bind_eq_bind, Option.some_bind,
    Option.pure_def]
  simp only [Option.some.injEq]
  omega

/- ### C4: the two-digit-year pivot -/

/-- C4 counterexample.  The two-digit year 99 resolves to 1999, not 2099:
the claim that every two-digit year YY maps to 2000+YY fails at YY = 99. -/
theorem c4_counterexample :
    resolveDate (("01/01/99").data) = Except.ok ⟨1999, 1, 1⟩ ∧ 1999 ≠ 2000 + 99 :=
  ⟨by decide, by decide⟩

/-- C4 amended.  A header date token with a two-digit year YY resolves with
year 2000+YY only for YY up to 68; from 69 to 99 it resolves to 1900+YY
(the CPython strptime pivot). -/
theorem c4_pivot :
    ∀ yy : ℕ, yy ≤ 99 →
      resolveDate (("01/01/").data ++ pad2 yy) =
        Except.ok ⟨if yy ≤ 68 then 2000 + yy else 1900 + yy, 1, 1⟩ := by
  intro yy h
  interval_cases yy <;> decide

/-- C4 witness: the amended pivot rule evaluated at the two-digit year 75. -/
theorem c4_pivot_witness :
    resolveDate (("01/01/").data ++ pad2 75) = Except.ok ⟨1975, 1, 1⟩ := by
  have h := c4_pivot 75 (by norm_num)
  norm_num at h
  exact h

set_option maxRecDepth 8000

/- ### C2: an impossible calendar date aborts the whole parse -/

/-- C2 (code bug).  A header whose date token matches the digit pattern but is
an impossible calendar date (31/02/2025) fails both strptime formats; the
ValueError raised at line 63/65 has no handler and propagates out of
parse_whatsapp_chat, aborting the parse.  The well-formed second message of
c2lines is lost with it, where the claim requires the bad message to be
dropped and processing to continue. -/
theorem c2_bad_date_raises : parseTable c2lines = Except.error () := by decide

/- ### C5: the three-player Tango scenario end to end -/

/-- C5.  Parsing the three Tango headers plus the CEO continuation line yields
the three-row table in which the 98% CEOs line attached to Cara's message;
scoring it for Tango ranks Alice first with 5 points, Bob second with 3,
Cara third with 1, and the day total is 9. -/
theorem c5_scenario :
    parseTable c5lines = Except.ok c5table ∧
    rowRank c5table (("Tango").data) c5date c5rowAlice = some 1 ∧
    senderScore c5table (("Tango").data) c5date (("Alice").data) = 5 ∧
    rowRank c5table (("Tango").data) c5date c5rowBob = some 2 ∧
    senderScore c5table (("Tango").data) c5date (("Bob").data) = 3 ∧
    rowRank c5table (("Tango").data) c5date c5rowCara = some 3 ∧
    senderScore c5table (("Tango").data) c5date (("Cara").data) = 1 ∧
    c5rowCara.ceoPercent = some (("98").data) ∧
    c5rowCara.ceoPercent.map digitsVal = some 98 ∧
    dayTotal c5table (("Tango").data) c5date = 9 := by
  have hgt : groupTimes c5table (("Tango").data) c5date = [45, 50, 55] := by decide
  have htA : timeSecOf c5rowAlice = some 45 := by decide
  have htB : timeSecOf c5rowBob = some 50 := by decide
  have htC : timeSecOf c5rowCara = some 55 := by decide
  have hfA : (gameDayRows c5table (("Tango").data) c5date).filter
      (fun r => decide (r.sender = ("Alice").data)) = [c5rowAlice] := by decide
  have hfB : (gameDayRows c5table (("Tango").data) c5date).filter
      (fun r => decide (r.sender = ("Bob").data)) = [c5rowBob] := by decide
  have hfC : (gameDayRows c5table (("Tango").data) c5date).filter
      (fun r => decide (r.sender = ("Cara").data)) = [c5rowCara] := by decide
  have hgd : gameDayRows c5table (("Tango").data) c5date = c5table := by decide
  have hsA : finalScore [45, 50, 55] 45 = 5 := by
    norm_num [finalScore, redistScore, baseSum, baseOf, cntLt, tieCount, baseScore,
      List.countP_cons]
  have hsB : finalScore [45, 50, 55] 50 = 3 := by
    norm_num [finalScore, redistScore, baseSum, baseOf, cntLt, tieCount, baseScore,
      List.countP_cons]
  have hsC : finalScore [45, 50, 55] 55 = 1 := by
    norm_num [finalScore, redistScore, baseSum, baseOf, cntLt, tieCount, baseScore,
      List.countP_cons]
  refine ⟨by decide, by decide, ?_, by decide, ?_, by decide, ?_, by decide, by decide, ?_⟩
  · simp [senderScore, hfA, rowScore, htA, hgt, hsA]
  · simp [senderScore, hfB, rowScore, htB, hgt, hsB]
  · simp [senderScore, hfC, rowScore, htC, hgt, hsC]
  · have hrA : rowScore c5table (("Tango").data) c5date c5rowAlice = 5 := by
      simp only [rowScore, htA, hgt, hsA]
    have hrB : rowScore c5table (("Tango").data) c5date c5rowBob = 3 := by
      simp only [rowScore, htB, hgt, hsB]
    have hrC : rowScore c5table (("Tango").data) c5date c5rowCara = 1 := by
      simp only [rowScore, htC, hgt, hsC]
    have hstep : dayTotal c5table (("Tango").data) c5date =
        rowScore c5table (("Tango").data) c5date c5rowAlice +
          (rowScore c5table (("Tango").data) c5date c5rowBob +
            (rowScore c5table (("Tango").data) c5date c5rowCara + 0)) := by
      rw [dayTotal, hgd]
      rfl
    rw [hstep, hrA, hrB, hrC]
    norm_num

/- ### The row invariant of the parse loop: ceo_percent is the search result
on the stored text (shared by the no-op-pass and the ceo-range claims) -/

/-- Every row emitted by extractRow carries ceoPercent = ceoSearch text. -/
theorem extractRow_ceo {msg : List Char} {r : RawRow}
    (h : extractRow msg = Except.ok (some r)) :
    r.ceoPercent = ceoSearch r.text := by
  unfold extractRow at h
  split at h
  · exact absurd h (by simp)
  · split at h
    · exact absurd h (by simp)
    · rw [Except.ok.injEq, Option.some.injEq] at h
      rw [← h]

/-- The row invariant survives one loop step. -/
theorem parseStep_ceo {st : List RawRow × List (List Char)} {l : List Char}
    {st1 : List RawRow × List (List Char)} (h : parseStep st l = Except.ok st1)
    (hinv : ∀ r ∈ st.1, r.ceoPercent = ceoSearch r.text) :
    ∀ r ∈ st1.1, r.ceoPercent = ceoSearch r.text := by
  simp only [parseStep] at h
  split at h
  · split at h
    · injection h with h2
      subst h2
      exact hinv
    · split at h
      · exact absurd h (by simp)
      · injection h with h2
        subst h2
        exact hinv
      · rename_i rr hex
        injection h with h2
        subst h2
        intro r hr
        rcases List.mem_append.mp hr with h1 | h2
        · exact hinv r h1
        · rw [List.mem_singleton.mp h2]
          exact extractRow_ceo hex
  · injection h with h2
    subst h2
    exact hinv

/-- The row invariant survives the whole loop. -/
theorem foldl_parseStep_ceo :
    ∀ (lines : List (List Char)) (st st2 : List RawRow × List (List Char)),
      List.foldlM parseStep st lines = Except.ok st2 →
      (∀ r ∈ st.1, r.ceoPercent = ceoSearch r.text) →
      ∀ r ∈ st2.1, r.ceoPercent = ceoSearch r.text := by
  intro lines
  induction lines with
  | nil =>
    intro st st2 h hinv
    rw [List.foldlM_nil] at h
    cases h
    exact hinv
  | cons l rest ih =>
    intro st st2 h hinv
    rw [List.foldlM_cons] at h
    cases hstep : parseStep st l with
    | error e => rw [hstep] at h; exact absurd h (by simp [Bind.bind, Except.bind])
    | ok st1 =>
      rw [hstep] at h
      simp only [Bind.bind, Except.bind] at h
      exact ih st1 st2 h (parseStep_ceo hstep hinv)

/-- Every row returned by parseRaw carries ceoPercent = ceoSearch text. -/
theorem parseRaw_ceo {lines : List (List Char)} {rows : List RawRow}
    (h : parseRaw lines = Except.ok rows) :
    ∀ r ∈ rows, r.ceoPercent = ceoSearch r.text := by
  simp only [parseRaw] at h
  split at h
  · exact absurd h (by simp)
  · rename_i st hfold
    have hst := foldl_parseStep_ceo lines ([], []) st hfold (by simp)
    split at h
    · exact absurd h (by simp)
    · split at h
      · exact absurd h (by simp)
      · injection h with h2
        subst h2
        exact hst
      · rename_i rr hex
        injection h with h2
        subst h2
        intro r hr
        rcases List.mem_append.mp hr with h1 | h2
        · exact hst r h1
        · rw [List.mem_singleton.mp h2]
          exact extractRow_ceo hex

/-- On a row satisfying the invariant the defensive re-search is the identity. -/
theorem fixCeo_of_inv {r : RawRow} (hinv : r.ceoPercent = ceoSearch r.text) :
    fixCeo r = r := by
  unfold fixCeo
  split
  · rename_i hc
    rw [hc] at hinv
    rw [← hinv, ← hc]
  · rfl

/-- On rows satisfying the invariant the defensive pass is the identity map. -/
theorem fixCeoPass_of_inv {rows : List RawRow}
    (hinv : ∀ r ∈ rows, r.ceoPercent = ceoSearch r.text) :
    fixCeoPass rows = rows := by
  unfold fixCeoPass
  rw [List.map_congr_left (fun r hr => fixCeo_of_inv (hinv r hr))]
  exact List.map_id rows

/-- Table rows come from raw rows through rowOf. -/
theorem mem_toTable {rows : List RawRow} {r : Row} (h : r ∈ toTable rows) :
    ∃ rr ∈ rows, r = rowOf rr := by
  unfold toTable at h
  have h1 := List.mem_of_mem_filter h
  rw [List.mem_insertionSort] at h1
  obtain ⟨rr, hrr, hEq⟩ := List.mem_map.mp h1
  exact ⟨rr, hrr, hEq.symm⟩

/- ### C9: the defensive re-search pass never changes the table -/

/-- C9.  The post-pass that re-searches each stored message text for a CEO
percentage when ceo_percent is None never changes any row: it applies the same
compiled pattern to the same stored text as the initial extraction, so the
table returned by parse is the same with or without the pass. -/
theorem c9_fix_pass_noop : ∀ lines, parseTable lines = parseTableNoPass lines := by
  intro lines
  unfold parseTable parseTableNoPass
  cases h : parseRaw lines with
  | error e => rfl
  | ok rows =>
    have hfix : fixCeoPass rows = rows := fixCeoPass_of_inv (parseRaw_ceo h)
    simp [Except.map, hfix]

/- ### C3: result table order and duplicate rows -/

/-- C3 counterexample.  Feeding the same game-result message twice yields a
table with two rows identical across all fields, refuting the claim that
duplicate submissions collapse to one. -/
theorem c3_counterexample :
    parseTable c3lines = Except.ok [c5rowAlice, c5rowAlice] ∧
    ¬ List.Pairwise (fun a b : Row => a ≠ b) [c5rowAlice, c5rowAlice] :=
  ⟨by decide, by simp⟩

/-- C3 amended.  The table returned by parse is sorted ascending by date, but
duplicate submissions are not collapsed: identical messages yield identical
duplicate rows. -/
theorem c3_sorted :
    ∀ (lines : List (List Char)) (tbl : List Row),
      parseTable lines = Except.ok tbl →
      tbl.Pairwise (fun a b => dateLe a.date b.date = true) := by
  intro lines tbl h
  unfold parseTable at h
  cases hp : parseRaw lines with
  | error e => rw [hp] at h; exact absurd h (by simp [Except.map])
  | ok rows =>
    rw [hp] at h
    simp only [Except.map, Except.ok.injEq] at h
    rw [← h]
    unfold toTable
    apply List.Pairwise.sublist (List.filter_sublist _)
    exact List.sorted_insertionSort rowLe _

/-- C3 witness: the sortedness part evaluated on the three-message input. -/
theorem c3_sorted_witness :
    c5table.Pairwise (fun a b => dateLe a.date b.date = true) :=
  c3_sorted c5lines c5table (by decide)

/- ### C10: the range of the ceo_percent capture -/

theorem digitVal_le_9 {c : Char} (h : isDigitC c = true) : digitVal c ≤ 9 := by
  simp only [isDigitC, Bool.and_eq_true, decide_eq_true_eq] at h
  simp only [digitVal]
  omega

/-- A successful ceo_re match at one position captures one or two digits. -/
theorem ceoMatchAt_shape {cs ds : List Char} (h : ceoMatchAt cs = some ds) :
    (∃ a, ds = [a] ∧ isDigitC a = true) ∨
      (∃ a b, ds = [a, b] ∧ isDigitC a = true ∧ isDigitC b = true) := by
  rcases hdw : cs.dropWhile isWS with _ | ⟨a, _ | ⟨b, rest2⟩⟩ <;>
    simp only [ceoMatchAt, hdw] at h
  · exact absurd h (by simp)
  · exact absurd h (by simp)
  by_cases ha : isDigitC a
  · rw [if_pos ha] at h
    by_cases hb : isDigitC b
    · rw [if_pos hb] at h
      rcases rest2 with _ | ⟨p, rest3⟩
      · exact absurd h (by simp)
      · have h3 : (if (decide (p = '%') && ceoTok rest3) = true then
            some [a, b] else none) = some ds := h
        by_cases hp : (decide (p = '%') && ceoTok rest3) = true
        · rw [if_pos hp] at h3
          injection h3 with h2
          exact Or.inr ⟨a, b, h2.symm, ha, hb⟩
        · rw [if_neg hp] at h3
          exact absurd h3 (by simp)
    · rw [if_neg hb] at h
      by_cases hpb : b = '%'
      · rw [if_pos hpb] at h
        by_cases ht : ceoTok rest2 = true
        · rw [if_pos ht] at h
          injection h with h2
          exact Or.inl ⟨a, h2.symm, ha⟩
        · rw [if_neg ht] at h
          exact absurd h (by simp)
      · rw [if_neg hpb] at h
        exact absurd h (by simp)
  · rw [if_neg ha] at h
    exact absurd h (by simp)

/-- A successful ceo_re search captures one or two digits. -/
theorem ceoSearch_shape :
    ∀ {cs ds : List Char}, ceoSearch cs = some ds →
      (∃ a, ds = [a] ∧ isDigitC a = true) ∨
        (∃ a b, ds = [a, b] ∧ isDigitC a = true ∧ isDigitC b = true) := by
  intro cs
  induction cs with
  | nil => intro ds h; exact absurd h (by simp [ceoSearch])
  | cons c rest ih =>
    intro ds h
    simp only [ceoSearch] at h
    split at h
    · rename_i r hm
      injection h with h2
      subst h2
      exact ceoMatchAt_shape hm
    · exact ih h

/-- The captured digit string decodes to a value of at most 99. -/
theorem ceoSearch_le_99 {cs ds : List Char} (h : ceoSearch cs = some ds) :
    (1 ≤ ds.length ∧ ds.length ≤ 2) ∧ (∀ c ∈ ds, isDigitC c = true) ∧ digitsVal ds ≤ 99 := by
  rcases ceoSearch_shape h with ⟨a, rfl, ha⟩ | ⟨a, b, rfl, ha, hb⟩
  · refine ⟨by simp, ?_, ?_⟩
    · intro c hc
      rw [List.mem_singleton.mp hc]
      exact ha
    · have := digitVal_le_9 ha
      simp only [digitsVal, List.foldl_cons, List.foldl_nil]
      omega
  · refine ⟨by simp, ?_, ?_⟩
    · intro c hc
      rcases List.mem_cons.mp hc with rfl | hc2
      · exact ha
      · rw [List.mem_singleton.mp hc2]
        exact hb
    · have h1 := digitVal_le_9 ha
      have h2 := digitVal_le_9 hb
      simp only [digitsVal, List.foldl_cons, List.foldl_nil]
      omega

/-- C10.  Every row of every parsed table has ceo_percent absent or a one-to-
two-digit capture in [0, 99]; it is never 100, and a message body carrying
"100%" before a CEO keyword yields the capture "00", read as the value 0. -/
theorem c10_ceo_range :
    (∀ (lines : List (List Char)) (tbl : List Row),
        parseTable lines = Except.ok tbl → tbl.all ceoOk = true) ∧
    parseTable c10lines = Except.ok [c10row] ∧
    c10row.ceoPercent.map digitsVal = some 0 := by
  refine ⟨?_, by decide, by decide⟩
  intro lines tbl h
  rw [List.all_eq_true]
  intro r hr
  unfold parseTable at h
  cases hp : parseRaw lines with
  | error e => rw [hp] at h; exact absurd h (by simp [Except.map])
  | ok rows =>
    rw [hp] at h
    simp only [Except.map, Except.ok.injEq] at h
    subst h
    have hinv := parseRaw_ceo hp
    rw [fixCeoPass_of_inv hinv] at hr
    obtain ⟨rr, hrrmem, rfl⟩ := mem_toTable hr
    have hceo : rr.ceoPercent = ceoSearch rr.text := hinv rr hrrmem
    unfold ceoOk
    split
    · rfl
    · rename_i ds hds
      have hsearch : ceoSearch rr.text = some ds := by
        rw [← hceo]
        exact hds
      obtain ⟨⟨hl1, hl2⟩, hdig, hval⟩ := ceoSearch_le_99 hsearch
      simp only [Bool.and_eq_true, decide_eq_true_eq, List.all_eq_true]
      exact ⟨⟨hl1, hl2⟩, hdig, hval⟩

/-- C10 witness: the range invariant evaluated on the 100% message. -/
theorem c10_ceo_range_witness :
    parseTable c10lines = Except.ok [c10row] ∧ ([c10row] : List Row).all ceoOk = true :=
  ⟨by decide, c10_ceo_range.1 c10lines [c10row] (by decide)⟩

/- ### C6: order of the single-day per-game view -/

theorem digitChar_toNat {n : ℕ} (h : n ≤ 9) : (digitChar n).toNat = 48 + n := by
  interval_cases n <;> rfl

theorem natStr_single {n : ℕ} (h : n < 10) : natStr n = [digitChar n] :=
  natDigitsAux_small (by omega) h

/-- Below ten minutes the m:ss string has exactly four characters. -/
theorem fmtMMSS_eq {a : ℕ} (h : a < 600) :
    fmtMMSS a = [digitChar (a / 60), ':', digitChar (a % 60 / 10), digitChar (a % 60 % 10)] := by
  rw [fmtMMSS, natStr_single (by omega), pad2_eq (by omega)]
  rfl

/-- Below ten minutes, the Python string order of two m:ss strings reflects the
numeric order of the encoded times. -/
theorem strLe_fmt_le {a b : ℕ} (ha : a < 600) (hb : b < 600)
    (h : strLe (fmtMMSS a) (fmtMMSS b) = true) : a ≤ b := by
  rw [fmtMMSS_eq ha, fmtMMSS_eq hb] at h
  simp only [strLe] at h
  rw [digitChar_toNat (show a / 60 ≤ 9 by omega),
    digitChar_toNat (show b / 60 ≤ 9 by omega),
    digitChar_toNat (show a % 60 / 10 ≤ 9 by omega),
    digitChar_toNat (show b % 60 / 10 ≤ 9 by omega),
    digitChar_toNat (show a % 60 % 10 ≤ 9 by omega),
    digitChar_toNat (show b % 60 % 10 ≤ 9 by omega)] at h
  split_ifs at h <;> omega

/-- C6 counterexample.  On a single day with times of 600 and 125 seconds the
view lists the 10:00 player before the 2:05 player, because the sort key is
the formatted string: the claim that earlier rows always have smaller or equal
raw times fails at times of ten minutes or more. -/
theorem c6_counterexample :
    singleDayView [("A", 600), ("B", 125)] = [("A", 600), ("B", 125)] ∧
      ¬ (600 : ℕ) ≤ 125 :=
  ⟨by decide, by decide⟩

/-- C6 amended.  The single-day per-game view is ordered by the m:ss display
string under Python string comparison; when every aggregated time is below ten
minutes (600 seconds) that order coincides with ascending raw seconds, so every
earlier row has a time less than or equal to every later row. -/
theorem c6_single_day_sorted :
    ∀ rows : List (String × ℕ), (∀ r ∈ rows, r.2 < 600) →
      (singleDayView rows).Pairwise (fun a b => a.2 ≤ b.2) := by
  intro rows hb
  have hs : (singleDayView rows).Pairwise viewRowLe :=
    List.sorted_insertionSort viewRowLe rows
  have hmem : ∀ r ∈ singleDayView rows, r.2 < 600 := by
    intro r hr
    exact hb r ((List.mem_insertionSort viewRowLe).mp hr)
  exact List.Pairwise.imp_of_mem
    (fun ha hb2 hr => strLe_fmt_le (hmem _ ha) (hmem _ hb2) hr) hs

/-- C6 witness: the amended order statement on a two-player day. -/
theorem c6_single_day_sorted_witness :
    (singleDayView [("A", 125), ("B", 45)]).Pairwise
      (fun a b : String × ℕ => a.2 ≤ b.2) :=
  c6_single_day_sorted [("A", 125), ("B", 45)] (by decide)

/- ### C7: the all-days total-time normalization -/

theorem rhe_intCast (n : ℤ) : rhe (n : ℚ) = n := by
  rw [rhe]
  simp [Int.floor_intCast]

theorem round2_intCast (n : ℤ) : round2 (n : ℚ) = n := by
  rw [round2, show (100 : ℚ) * (n : ℚ) = ((100 * n : ℤ) : ℚ) by push_cast; ring,
    rhe_intCast]
  push_cast
  ring

/-- C7 counterexample.  P1 played 3 of 4 games totalling 100 seconds: the code
pads with the rounded average 33.33, giving 133.33, while the claim's padding
with the exact own average gives 100 + 100/3; the two differ. -/
theorem c7_counterexample :
    normalizedTotal c7rows "P1" ≠
      (totalTime c7rows "P1" : ℚ) +
        ((maxGames c7rows : ℚ) - (gamesPlayed c7rows "P1" : ℚ)) *
          ((totalTime c7rows "P1" : ℚ) / (gamesPlayed c7rows "P1" : ℚ)) := by
  have h1 : gamesPlayed c7rows "P1" = 3 := by decide
  have h2 : totalTime c7rows "P1" = 100 := by decide
  have h3 : maxGames c7rows = 4 := by decide
  rw [normalizedTotal, if_neg (by rw [h1, h3]; omega), avgTime, h1, h2, h3]
  have hx : (100 : ℚ) * ((100 : ℤ) / ((3 : ℕ) : ℚ)) = 10000 / 3 := by
    norm_num
  have hf : ⌊(10000 : ℚ) / 3⌋ = (3333 : ℤ) := by
    rw [Int.floor_eq_iff]
    norm_num
  rw [round2, hx, rhe]
  rw [hf]
  norm_num

/-- C7 amended.  In the all-days Total-time view, a player at the maximum game
count keeps the actual total; a player who played exactly 1 row while the
maximum is 4 gets actual time plus own average times 3 (exactly, since a
one-game average is an integer); and in general a player below the maximum is
padded by (maximum - own count) times the own average rounded to two decimal
places. -/
theorem c7_normalization :
    ∀ (rows : List (String × ℤ)) (s : String),
      (gamesPlayed rows s = maxGames rows →
        normalizedTotal rows s = (totalTime rows s : ℚ)) ∧
      (gamesPlayed rows s = 1 → maxGames rows = 4 →
        normalizedTotal rows s =
          (totalTime rows s : ℚ) +
            ((totalTime rows s : ℚ) / (gamesPlayed rows s : ℚ)) * 3) ∧
      (gamesPlayed rows s ≠ maxGames rows →
        normalizedTotal rows s =
          (totalTime rows s : ℚ) +
            ((maxGames rows : ℚ) - (gamesPlayed rows s : ℚ)) *
              round2 ((totalTime rows s : ℚ) / (gamesPlayed rows s : ℚ))) := by
  intro rows s
  refine ⟨?_, ?_, ?_⟩
  · intro h
    rw [normalizedTotal, if_pos h]
  · intro h1 h4
    rw [normalizedTotal, if_neg (by rw [h1, h4]; omega), avgTime, h1, h4]
    have hq : ((totalTime rows s : ℤ) : ℚ) / ((1 : ℕ) : ℚ) = ((totalTime rows s : ℤ) : ℚ) := by
      norm_num
    rw [hq, round2_intCast]
    push_cast
    ring
  · intro h
    rw [normalizedTotal, if_neg h, avgTime]
    ring

/-- C7 witness: the one-of-four-games scenario, P with a single 45-second game
against Q's four games. -/
theorem c7_normalization_witness :
    normalizedTotal c7rowsB "P" =
      (totalTime c7rowsB "P" : ℚ) +
        ((totalTime c7rowsB "P" : ℚ) / (gamesPlayed c7rowsB "P" : ℚ)) * 3 :=
  (c7_normalization c7rowsB "P").2.1 (by decide) (by decide)

/- ### C1: conservation of the day's points.  Structure of min-method ranks:
rank-1 entries are the copies of the minimum; a rank-2 entry forces a unique
minimum; a rank-3 entry forces exactly two entries ahead of it. -/

theorem countP_congr_mem {α : Type} {p q : α → Bool} :
    ∀ {l : List α}, (∀ x ∈ l, p x = q x) → l.countP p = l.countP q := by
  intro l h
  induction l with
  | nil => rfl
  | cons x xs ih =>
    rw [List.countP_cons, List.countP_cons, h x (by simp),
      ih (fun y hy => h y (by simp [hy]))]

theorem countP_or_disjoint {α : Type} {p q r : α → Bool}
    (hpq : ∀ x, ¬ (p x = true ∧ q x = true))
    (hr : ∀ x, r x = true ↔ (p x = true ∨ q x = true)) :
    ∀ l : List α, l.countP r = l.countP p + l.countP q := by
  intro l
  induction l with
  | nil => simp
  | cons x xs ih =>
    rw [List.countP_cons, List.countP_cons, List.countP_cons, ih]
    by_cases hp : p x = true <;> by_cases hq : q x = true
    · exact absurd ⟨hp, hq⟩ (hpq x)
    · have hrx : r x = true := (hr x).mpr (Or.inl hp)
      rw [if_pos hp, if_neg hq, if_pos hrx]
      omega
    · have hrx : r x = true := (hr x).mpr (Or.inr hq)
      rw [if_neg hp, if_pos hq, if_pos hrx]
      omega
    · have hrx : ¬ r x = true := fun hc => by
        rcases (hr x).mp hc with h1 | h1
        · exact hp h1
        · exact hq h1
      rw [if_neg hp, if_neg hq, if_neg hrx]
      omega

theorem cntLt_mono (ts : List ℤ) {t u : ℤ} (h : t ≤ u) : cntLt ts t ≤ cntLt ts u := by
  apply List.countP_mono_left
  intro x _ hx
  simp only [decide_eq_true_eq] at hx ⊢
  omega

theorem cntLt_strict {ts : List ℤ} {t u : ℤ} (ht : t ∈ ts) (h : t < u) :
    cntLt ts t < cntLt ts u := by
  have hone : 0 < ts.countP (fun x => decide (x = t)) :=
    List.countP_pos_iff.mpr ⟨t, ht, by simp⟩
  have hsplit : ts.countP (fun x => decide (x ≤ t)) =
      ts.countP (fun x => decide (x < t)) + ts.countP (fun x => decide (x = t)) := by
    apply countP_or_disjoint
    · intro x
      simp only [decide_eq_true_eq]
      omega
    · intro x
      simp only [decide_eq_true_eq]
      omega
  have hmono : ts.countP (fun x => decide (x ≤ t)) ≤ ts.countP (fun x => decide (x < u)) := by
    apply List.countP_mono_left
    intro x _ hx
    simp only [decide_eq_true_eq] at hx ⊢
    omega
  unfold cntLt
  omega

theorem cntLt_lt_of_mem {ts : List ℤ} {t u : ℤ}
    (h : cntLt ts u < cntLt ts t) : u < t := by
  by_contra hc
  push_neg at hc
  have := cntLt_mono ts hc
  omega

/-- For a member t, the entries strictly below t's rank class are exactly the
entries with smaller time, and there are cntLt t of them. -/
theorem countP_below (ts : List ℤ) (t : ℤ) :
    ts.countP (fun u => decide (cntLt ts u < cntLt ts t)) = cntLt ts t := by
  show _ = ts.countP (fun u => decide (u < t))
  apply countP_congr_mem
  intro x hx
  apply decide_eq_decide.mpr
  constructor
  · intro h1
    exact cntLt_lt_of_mem h1
  · intro h1
    exact cntLt_strict hx h1

/-- If the classes below k are full (exactly k entries) and more entries
remain, the class k itself is inhabited. -/
theorem exists_rank (ts : List ℤ) (k : ℕ)
    (hk : ts.countP (fun u => decide (cntLt ts u < k)) = k) (hlen : k < ts.length) :
    0 < ts.countP (fun u => decide (cntLt ts u = k)) := by
  have hex : ∃ t ∈ ts, ¬ cntLt ts t < k := by
    by_contra hc
    push_neg at hc
    have hall : ts.countP (fun u => decide (cntLt ts u < k)) = ts.length := by
      rw [List.countP_eq_length]
      intro a ha
      simpa using hc a ha
    omega
  obtain ⟨t0, ht0, hk0⟩ := hex
  have hPex : ∃ c : ℕ, k ≤ c ∧ 0 < ts.countP (fun u => decide (cntLt ts u = c)) :=
    ⟨cntLt ts t0, by omega, List.countP_pos_iff.mpr ⟨t0, ht0, by simp⟩⟩
  obtain ⟨hkc, hpos⟩ := Nat.find_spec hPex
  obtain ⟨t1, ht1, hc1⟩ := List.countP_pos_iff.mp hpos
  simp only [decide_eq_true_eq] at hc1
  have hH := countP_below ts t1
  rw [hc1] at hH
  have hsplit : ts.countP (fun u => decide (cntLt ts u < Nat.find hPex)) =
      ts.countP (fun u => decide (cntLt ts u < k)) +
        ts.countP (fun u => decide (k ≤ cntLt ts u ∧ cntLt ts u < Nat.find hPex)) := by
    apply countP_or_disjoint
    · intro x
      simp only [decide_eq_true_eq]
      omega
    · intro x
      simp only [decide_eq_true_eq]
      omega
  have hzero : ts.countP
      (fun u => decide (k ≤ cntLt ts u ∧ cntLt ts u < Nat.find hPex)) = 0 := by
    rw [List.countP_eq_zero]
    intro u hu hc
    simp only [decide_eq_true_eq] at hc
    exact Nat.find_min hPex hc.2
      ⟨hc.1, List.countP_pos_iff.mpr ⟨u, hu, by simp⟩⟩
  rw [hsplit, hzero, hk] at hH
  have hkfind : k = Nat.find hPex := by omega
  rw [hkfind]
  exact hpos

theorem n0_pos {ts : List ℤ} (h : ts ≠ []) :
    0 < ts.countP (fun u => decide (cntLt ts u = 0)) := by
  apply exists_rank
  · rw [List.countP_eq_zero]
    intro u _ hc
    simp at hc
  · rw [List.length_pos]
    exact h

/-- A rank-2 entry forces a unique minimum. -/
theorem rank2_unique {ts : List ℤ} {t : ℤ} (h1 : cntLt ts t = 1) :
    ts.countP (fun u => decide (cntLt ts u = 0)) = 1 := by
  have hH := countP_below ts t
  rw [h1] at hH
  rw [← hH]
  apply countP_congr_mem
  intro x _
  apply decide_eq_decide.mpr
  omega

/-- A rank-3 entry forces exactly two entries in the classes below. -/
theorem rank3_two {ts : List ℤ} {t : ℤ} (h2 : cntLt ts t = 2) :
    ts.countP (fun u => decide (cntLt ts u = 0)) +
      ts.countP (fun u => decide (cntLt ts u = 1)) = 2 := by
  have hH := countP_below ts t
  rw [h2] at hH
  rw [← hH]
  symm
  apply countP_or_disjoint
  · intro x
    simp only [decide_eq_true_eq]
    omega
  · intro x
    simp only [decide_eq_true_eq]
    omega

theorem baseOf_val (ts : List ℤ) (t : ℤ) :
    baseOf ts t = if cntLt ts t = 0 then (5 : ℚ) else if cntLt ts t = 1 then 3
      else if cntLt ts t = 2 then 1 else 0 := by
  unfold baseOf baseScore
  generalize cntLt ts t = c
  rcases c with _ | _ | _ | c
  · norm_num
  · norm_num
  · norm_num
  · simp [show c + 1 + 1 + 1 + 1 ≠ 1 by omega, show c + 1 + 1 + 1 + 1 ≠ 2 by omega,
      show c + 1 + 1 + 1 + 1 ≠ 3 by omega, show c + 1 + 1 + 1 ≠ 0 by omega,
      show c + 1 + 1 + 1 ≠ 1 by omega, show c + 1 + 1 + 1 ≠ 2 by omega]

theorem baseOf_eq_five {ts : List ℤ} {t : ℤ} : baseOf ts t = 5 ↔ cntLt ts t = 0 := by
  rw [baseOf_val]
  by_cases h0 : cntLt ts t = 0
  · norm_num [h0]
  · by_cases h1 : cntLt ts t = 1
    · norm_num [h0, h1]
    · by_cases h2 : cntLt ts t = 2
      · norm_num [h0, h1, h2]
      · norm_num [h0, h1, h2]

theorem baseOf_eq_three {ts : List ℤ} {t : ℤ} : baseOf ts t = 3 ↔ cntLt ts t = 1 := by
  rw [baseOf_val]
  by_cases h0 : cntLt ts t = 0
  · norm_num [h0]
  · by_cases h1 : cntLt ts t = 1
    · norm_num [h0, h1]
    · by_cases h2 : cntLt ts t = 2
      · norm_num [h0, h1, h2]
      · norm_num [h0, h1, h2]

theorem baseOf_eq_one {ts : List ℤ} {t : ℤ} : baseOf ts t = 1 ↔ cntLt ts t = 2 := by
  rw [baseOf_val]
  by_cases h0 : cntLt ts t = 0
  · norm_num [h0]
  · by_cases h1 : cntLt ts t = 1
    · norm_num [h0, h1]
    · by_cases h2 : cntLt ts t = 2
      · norm_num [h0, h1, h2]
      · norm_num [h0, h1, h2]

theorem tieCount_five (ts : List ℤ) :
    tieCount ts 5 = ts.countP (fun u => decide (cntLt ts u = 0)) :=
  countP_congr_mem (fun _ _ => decide_eq_decide.mpr baseOf_eq_five)

theorem tieCount_three (ts : List ℤ) :
    tieCount ts 3 = ts.countP (fun u => decide (cntLt ts u = 1)) :=
  countP_congr_mem (fun _ _ => decide_eq_decide.mpr baseOf_eq_three)

theorem tieCount_one (ts : List ℤ) :
    tieCount ts 1 = ts.countP (fun u => decide (cntLt ts u = 2)) :=
  countP_congr_mem (fun _ _ => decide_eq_decide.mpr baseOf_eq_one)

/-- The redistributed points of an entry as a function of its rank class and
the three class sizes. -/
theorem redistScore_val (ts : List ℤ) (t : ℤ) :
    redistScore ts t =
      if cntLt ts t = 0 then
        (if ts.countP (fun u => decide (cntLt ts u = 0)) = 2 then 4
         else if 2 < ts.countP (fun u => decide (cntLt ts u = 0)) then
           9 / (ts.countP (fun u => decide (cntLt ts u = 0)) : ℚ)
         else 5)
      else if cntLt ts t = 1 then
        (if 1 < ts.countP (fun u => decide (cntLt ts u = 1)) then
           4 / (ts.countP (fun u => decide (cntLt ts u = 1)) : ℚ)
         else 3)
      else if cntLt ts t = 2 then
        (if 1 < ts.countP (fun u => decide (cntLt ts u = 2)) then
           1 / (ts.countP (fun u => decide (cntLt ts u = 2)) : ℚ)
         else 1)
      else 0 := by
  simp only [redistScore]
  by_cases h0 : cntLt ts t = 0
  · rw [baseOf_eq_five.mpr h0, tieCount_five, if_pos h0]
    norm_num
  · by_cases h1 : cntLt ts t = 1
    · rw [baseOf_eq_three.mpr h1, tieCount_three, if_neg h0, if_pos h1]
      norm_num
    · by_cases h2 : cntLt ts t = 2
      · rw [baseOf_eq_one.mpr h2, tieCount_one, if_neg h0, if_neg h1, if_pos h2]
        norm_num
      · have hb : baseOf ts t = 0 := by
          rw [baseOf_val, if_neg h0, if_neg h1, if_neg h2]
        rw [hb, if_neg h0, if_neg h1, if_neg h2]
        norm_num

/-- Summing a function of the rank class over the day's entries. -/
theorem sum_classes (ts : List ℤ) (g : ℕ → ℚ) (hg : ∀ c, 3 ≤ c → g c = 0) :
    ∀ l : List ℤ, (l.map (fun t => g (cntLt ts t))).sum =
      (l.countP (fun u => decide (cntLt ts u = 0)) : ℚ) * g 0 +
        (l.countP (fun u => decide (cntLt ts u = 1)) : ℚ) * g 1 +
        (l.countP (fun u => decide (cntLt ts u = 2)) : ℚ) * g 2 := by
  intro l
  induction l with
  | nil => simp
  | cons x xs ih =>
    rw [List.map_cons, List.sum_cons, ih, List.countP_cons, List.countP_cons,
      List.countP_cons]
    rcases (show cntLt ts x = 0 ∨ cntLt ts x = 1 ∨ cntLt ts x = 2 ∨ 3 ≤ cntLt ts x by omega)
      with h | h | h | h
    · rw [h]
      simp
      ring
    · rw [h]
      simp
      ring
    · rw [h]
      simp
      ring
    · rw [hg _ h]
      have c0 : ¬ cntLt ts x = 0 := by omega
      have c1 : ¬ cntLt ts x = 1 := by omega
      have c2 : ¬ cntLt ts x = 2 := by omega
      simp [c0, c1, c2]

/-- The day's base points in terms of the class sizes. -/
theorem baseSum_val (ts : List ℤ) :
    baseSum ts = ((5 * ts.countP (fun u => decide (cntLt ts u = 0)) +
      3 * ts.countP (fun u => decide (cntLt ts u = 1)) +
      ts.countP (fun u => decide (cntLt ts u = 2)) : ℕ) : ℚ) := by
  unfold baseSum
  have hmap : ts.map (baseOf ts) = ts.map (fun t =>
      (fun c : ℕ => if c = 0 then (5 : ℚ) else if c = 1 then 3 else if c = 2 then 1 else 0)
        (cntLt ts t)) :=
    List.map_congr_left (fun t _ => by rw [baseOf_val ts t])
  rw [hmap, sum_classes ts
    (fun c : ℕ => if c = 0 then (5 : ℚ) else if c = 1 then 3 else if c = 2 then 1 else 0)
    (fun c hc => by
      simp [show ¬ c = 0 by omega, show ¬ c = 1 by omega, show ¬ c = 2 by omega]) ts]
  push_cast
  norm_num
  ring

/-- C1.  For every DailyGameGroup with at least one participant, the per-entry
points after tie redistribution sum to exactly 9 when there are 3 or more
participants, 8 when there are exactly 2, and the single-participant base
value (5 points for rank 1) when there is exactly 1 — ties at any rank and
compound ties at multiple ranks included, since the times are arbitrary. -/
theorem c1_conservation :
    ∀ ts : List ℤ, ts ≠ [] →
      dayPoints ts = if 3 ≤ ts.length then 9
        else if ts.length = 2 then 8 else baseScore 1 := by
  intro ts hne
  set n0 := ts.countP (fun u => decide (cntLt ts u = 0)) with hn0def
  set n1 := ts.countP (fun u => decide (cntLt ts u = 1)) with hn1def
  set n2 := ts.countP (fun u => decide (cntLt ts u = 2)) with hn2def
  have h0pos : 1 ≤ n0 := n0_pos hne
  have hlen1 : 1 ≤ ts.length := by
    rw [Nat.one_le_iff_ne_zero]
    simpa using hne
  have hsum_le : n0 + n1 + n2 ≤ ts.length := by
    have hA : ts.countP (fun u => decide (cntLt ts u ≤ 1)) = n0 + n1 := by
      rw [hn0def, hn1def]
      exact countP_or_disjoint (fun x => by simp only [decide_eq_true_eq]; omega)
        (fun x => by simp only [decide_eq_true_eq]; omega) ts
    have hB : ts.countP (fun u => decide (cntLt ts u ≤ 2)) =
        ts.countP (fun u => decide (cntLt ts u ≤ 1)) + n2 := by
      rw [hn2def]
      exact countP_or_disjoint (fun x => by simp only [decide_eq_true_eq]; omega)
        (fun x => by simp only [decide_eq_true_eq]; omega) ts
    have hC := List.countP_le_length (fun u => decide (cntLt ts u ≤ 2)) (l := ts)
    omega
  have f1 : 0 < n1 → n0 = 1 := by
    intro hp
    rw [hn1def] at hp
    obtain ⟨t, ht, hc⟩ := List.countP_pos_iff.mp hp
    simp only [decide_eq_true_eq] at hc
    have := rank2_unique hc
    rw [← hn0def] at this
    exact this
  have f2 : 0 < n2 → n0 + n1 = 2 := by
    intro hp
    rw [hn2def] at hp
    obtain ⟨t, ht, hc⟩ := List.countP_pos_iff.mp hp
    simp only [decide_eq_true_eq] at hc
    have := rank3_two hc
    rw [← hn0def, ← hn1def] at this
    exact this
  have g1 : n0 = 1 → 2 ≤ ts.length → 0 < n1 := by
    intro h1 hlen
    have heq : ts.countP (fun u => decide (cntLt ts u < 1)) = n0 := by
      rw [hn0def]
      exact countP_congr_mem (fun x _ => decide_eq_decide.mpr (by omega))
    have := exists_rank ts 1 (by omega) (by omega)
    rw [← hn1def] at this
    exact this
  have g2 : n0 + n1 = 2 → 3 ≤ ts.length → 0 < n2 := by
    intro h2 hlen
    have heq : ts.countP (fun u => decide (cntLt ts u < 2)) = n0 + n1 := by
      rw [hn0def, hn1def]
      exact countP_or_disjoint (fun x => by simp only [decide_eq_true_eq]; omega)
        (fun x => by simp only [decide_eq_true_eq]; omega) ts
    have := exists_rank ts 2 (by omega) (by omega)
    rw [← hn2def] at this
    exact this
  have hbsv : baseSum ts = ((5 * n0 + 3 * n1 + n2 : ℕ) : ℚ) := by
    rw [baseSum_val, hn0def, hn1def, hn2def]
  by_cases hbs : baseSum ts = 9
  · have hd : dayPoints ts = baseSum ts := by
      unfold dayPoints baseSum
      refine congrArg List.sum (List.map_congr_left ?_)
      intro t _
      unfold finalScore
      rw [if_pos hbs]
    have h9 : 5 * n0 + 3 * n1 + n2 = 9 := by
      have hc : ((5 * n0 + 3 * n1 + n2 : ℕ) : ℚ) = ((9 : ℕ) : ℚ) := by
        rw [← hbsv, hbs]
        norm_num
      exact_mod_cast hc
    have hlen3 : 3 ≤ ts.length := by
      by_contra hc
      push_neg at hc
      omega
    rw [hd, hbs, if_pos hlen3]
  · have hB9 : ¬ (5 * n0 + 3 * n1 + n2 = 9) := by
      intro hc
      apply hbs
      rw [hbsv, hc]
      norm_num
    have hd : dayPoints ts =
        (n0 : ℚ) * (if n0 = 2 then 4 else if 2 < n0 then 9 / (n0 : ℚ) else 5) +
          (n1 : ℚ) * (if 1 < n1 then 4 / (n1 : ℚ) else 3) +
          (n2 : ℚ) * (if 1 < n2 then 1 / (n2 : ℚ) else 1) := by
      unfold dayPoints
      have hmap : ts.map (finalScore ts) = ts.map (fun t =>
          (fun c : ℕ => if c = 0 then
              (if n0 = 2 then (4 : ℚ) else if 2 < n0 then 9 / (n0 : ℚ) else 5)
            else if c = 1 then (if 1 < n1 then 4 / (n1 : ℚ) else 3)
            else if c = 2 then (if 1 < n2 then 1 / (n2 : ℚ) else 1)
            else 0) (cntLt ts t)) := by
        refine List.map_congr_left ?_
        intro t _
        unfold finalScore
        rw [if_neg hbs, redistScore_val, ← hn0def, ← hn1def, ← hn2def]
      rw [hmap, sum_classes ts
        (fun c : ℕ => if c = 0 then
            (if n0 = 2 then (4 : ℚ) else if 2 < n0 then 9 / (n0 : ℚ) else 5)
          else if c = 1 then (if 1 < n1 then 4 / (n1 : ℚ) else 3)
          else if c = 2 then (if 1 < n2 then 1 / (n2 : ℚ) else 1)
          else 0)
        (fun c hc => by
          simp [show ¬ c = 0 by omega, show ¬ c = 1 by omega, show ¬ c = 2 by omega]) ts]
      rw [← hn0def, ← hn1def, ← hn2def]
      norm_num
    rcases Nat.lt_or_ge n0 2 with hc0 | hc0
    · have hn0e : n0 = 1 := by omega
      rcases Nat.eq_zero_or_pos n1 with hn1e | hn1pos
      · have hlene : ts.length = 1 := by
          by_contra hc
          exact absurd (g1 hn0e (by omega)) (by omega)
        have hn2e : n2 = 0 := by omega
        rw [hd, hn0e, hn1e, hn2e, hlene]
        norm_num [baseScore]
      · rcases Nat.lt_or_ge n1 2 with hc1 | hc1
        · have hn1e : n1 = 1 := by omega
          rcases Nat.eq_zero_or_pos n2 with hn2e | hn2pos
          · have hlene : ts.length = 2 := by
              by_contra hc
              rcases (show 3 ≤ ts.length ∨ ts.length ≤ 1 by omega) with h3 | h3
              · exact absurd (g2 (by omega) h3) (by omega)
              · omega
            rw [hd, hn0e, hn1e, hn2e, hlene]
            norm_num
          · have hn2_2 : 2 ≤ n2 := by
              rcases Nat.lt_or_ge n2 2 with hh | hh
              · exact absurd (by omega : 5 * n0 + 3 * n1 + n2 = 9) hB9
              · exact hh
            rw [hd, hn0e, hn1e, if_pos (show 3 ≤ ts.length by omega)]
            rw [if_neg (by norm_num), if_neg (by norm_num), if_neg (by norm_num),
              if_pos (by omega : 1 < n2)]
            have hn2ne : (n2 : ℚ) ≠ 0 := by
              exact_mod_cast (by omega : n2 ≠ 0)
            field_simp
            norm_num
        · have hn2e : n2 = 0 := by
            by_contra hc
            have := f2 (by omega)
            omega
          have hlen3 : 3 ≤ ts.length := by omega
          rw [hd, hn0e, hn2e, if_pos hlen3]
          rw [if_neg (by norm_num), if_neg (by norm_num), if_pos (by omega : 1 < n1)]
          have hn1ne : (n1 : ℚ) ≠ 0 := by
            exact_mod_cast (by omega : n1 ≠ 0)
          field_simp
          norm_num
    · rcases Nat.lt_or_ge n0 3 with hc02 | hc03
      · have hn0e : n0 = 2 := by omega
        have hn1e : n1 = 0 := by
          by_contra hc
          have := f1 (by omega)
          omega
        rcases Nat.eq_zero_or_pos n2 with hn2e | hn2pos
        · have hlene : ts.length = 2 := by
            by_contra hc
            rcases (show 3 ≤ ts.length ∨ ts.length ≤ 1 by omega) with h3 | h3
            · exact absurd (g2 (by omega) h3) (by omega)
            · omega
          rw [hd, hn0e, hn1e, hn2e, hlene]
          norm_num
        · have hlen3 : 3 ≤ ts.length := by omega
          rw [hd, hn0e, hn1e, if_pos hlen3]
          rcases Nat.lt_or_ge n2 2 with hh | hh
          · have hn2e : n2 = 1 := by omega
            rw [hn2e]
            norm_num
          · rw [if_pos rfl, if_pos (by omega : 1 < n2)]
            have hn2ne : (n2 : ℚ) ≠ 0 := by
              exact_mod_cast (by omega : n2 ≠ 0)
            field_simp
            norm_num
      · have hn1e : n1 = 0 := by
          by_contra hc
          have := f1 (by omega)
          omega
        have hn2e : n2 = 0 := by
          by_contra hc
          have := f2 (by omega)
          omega
        have hlen3 : 3 ≤ ts.length := by omega
        rw [hd, hn1e, hn2e, if_pos hlen3]
        rw [if_neg (by omega : ¬ n0 = 2), if_pos (by omega : 2 < n0)]
        have hn0ne : (n0 : ℚ) ≠ 0 := by
          exact_mod_cast (by omega : n0 ≠ 0)
        field_simp

/-- C1 witness: a compound-tie day, two tied at first and three tied at third,
evaluated to the conserved total of 9. -/
theorem c1_conservation_witness :
    dayPoints [45, 45, 50, 50, 50] =
      if 3 ≤ ([45, 45, 50, 50, 50] : List ℤ).length then 9
      else if ([45, 45, 50, 50, 50] : List ℤ).length = 2 then 8 else baseScore 1 :=
  c1_conservation [45, 45, 50, 50, 50] (by decide)

end LG
